import Mathlib

/-!
Verification of the block-file bookkeeping utilities in
`megatron/core/models/retro/data/utils.py`.

The Python code is shallowly embedded: paths are `List Char` (Python `str`
is a character sequence), machine integers are `Nat`/`Int`/`ℚ` with exact
arithmetic, the filesystem is an explicit map from paths to file status,
and Python exceptions become `Option`/`Except` results.
-/

namespace Retro



/-! ## Block ranges (`get_blocks`, lines 101–104)

Python:
  block_start_idxs = list(range(0, n_samples, block_size))
  block_end_idxs = [ min(n_samples, i + block_size) for i in block_start_idxs ]
  block_ranges = list(zip(block_start_idxs, block_end_idxs))

`range(0, n, s)` for `s > 0` is the list `[0, s, 2*s, ...]` of the
`⌈n/s⌉` multiples of `s` below `n`; we embed it via `List.range`. -/


/-- Number of blocks: `⌈n_samples / block_size⌉` in natural division. -/
def numBlocks (n_samples block_size : Nat) : Nat :=
  (n_samples + block_size - 1) / block_size

/-- Python `range(0, n_samples, block_size)`. -/
def block_start_idxs (n_samples block_size : Nat) : List Nat :=
  (List.range (numBlocks n_samples block_size)).map (· * block_size)

/-- Python `[ min(n_samples, i + block_size) for i in block_start_idxs ]`. -/
def block_end_idxs (n_samples block_size : Nat) : List Nat :=
  (block_start_idxs n_samples block_size).map (fun i => min n_samples (i + block_size))

/-- Python `list(zip(block_start_idxs, block_end_idxs))`. -/
def block_ranges (n_samples block_size : Nat) : List (Nat × Nat) :=
  (block_start_idxs n_samples block_size).zip (block_end_idxs n_samples block_size)

/-! ## Decimal strings

Python `str(i)` and `str.zfill`, embedded over `List Char`. -/


/-- The character for decimal digit `d` (`'0'` is code point 48). -/
def digitChar (d : Nat) : Char := Char.ofNat (48 + d)

/-- Helper for `natChars`: `fuel` bounds the recursion depth (any
`fuel > n` works) and keeps the recursion structural, so that concrete
numerals evaluate inside the kernel. -/
def natCharsAux : Nat → Nat → List Char
  | 0, _ => []
  | fuel + 1, n =>
    if n < 10 then [digitChar n]
    else natCharsAux fuel (n / 10) ++ [digitChar (n % 10)]

/-- Python `str(n)` for a natural number: decimal digits, most significant
first. -/
def natChars (n : Nat) : List Char := natCharsAux (n + 1) n

/-- Python `int(s)` on a string of decimal digits. -/
def parseDigits (s : List Char) : Nat :=
  s.foldl (fun a c => 10 * a + (c.toNat - 48)) 0

/-- Python `s.zfill(d)`: left-pad with `'0'` to width `d` (no-op when
`s` is already at least that wide). -/
def zfill (d : Nat) (s : List Char) : List Char :=
  List.replicate (d - s.length) '0' ++ s

/-! ## Block file paths (`get_blocks`, lines 107–114)

Python:
  n_digits = int(np.ceil(np.log(n_samples) / np.log(10)) + 1)
  all_blocks = [{ "range": r,
                  "path": os.path.join(project_dir,
                      "%s-%s.hdf5" % tuple([str(i).zfill(n_digits) for i in r])) }
                for r in block_ranges]

`np.log(n) / np.log(10)` is `log₁₀ n`, so in exact arithmetic
`n_digits = ⌈log₁₀ n_samples⌉ + 1`.  For `n ≥ 2` the ceiling is
`Nat.log 10 (n-1) + 1` (the least `k` with `n ≤ 10^k`); for `n = 1` it is
`0`.  `os.path.join(dir, name)` is `dir ++ "/" ++ name` for a non-empty
`dir` without a trailing separator, the case used by this pipeline. -/


/-- Python `int(np.ceil(np.log(n_samples) / np.log(10)) + 1)` in exact
arithmetic: `⌈log₁₀ n_samples⌉ + 1`.  Computed through the decimal length
of `n_samples - 1` (for `n ≥ 2` that length is `⌊log₁₀ (n-1)⌋ + 1 =
⌈log₁₀ n⌉, see `n_digits_eq` and `ceilLog10_spec`); this form evaluates
inside the kernel. -/
def n_digits (n_samples : Nat) : Nat :=
  if n_samples ≤ 1 then 1 else (natChars (n_samples - 1)).length + 1

/-- The ceiling `⌈log₁₀ n⌉` (the exact value of `np.ceil(np.log(n) / np.log(10))`
for `n ≥ 1`): least `k` with `n ≤ 10 ^ k`. -/
def ceilLog10 (n : Nat) : Nat := if n ≤ 1 then 0 else Nat.log 10 (n - 1) + 1

/-- The extension `".hdf5"`. -/
def hdf5Ext : List Char := ['.', 'h', 'd', 'f', '5']

/-- Python `"%s-%s.hdf5" % (str(start).zfill(nd), str(end).zfill(nd))`. -/
def blockFileName (nd : Nat) (r : Nat × Nat) : List Char :=
  zfill nd (natChars r.1) ++ '-' :: (zfill nd (natChars r.2) ++ hdf5Ext)

/-- Python `os.path.join(project_dir, blockFileName ...)`. -/
def blockPath (dir : List Char) (nd : Nat) (r : Nat × Nat) : List Char :=
  dir ++ '/' :: blockFileName nd r

/-- A block descriptor: `{"range": r, "path": ...}`. -/
structure Block where
  range : Nat × Nat
  path : List Char
deriving DecidableEq, Repr

/-- The `all_blocks` list of `get_blocks`. -/
def all_blocks (dir : List Char) (n_samples block_size : Nat) : List Block :=
  (block_ranges n_samples block_size).map
    (fun r => { range := r, path := blockPath dir (n_digits n_samples) r })

/-! ## Filesystem model and the scanner (`get_blocks`, lines 117–150)

The shared directory is a map from paths to file status.  A present file
records whether `h5py.File(path, "r")` succeeds (`readable`) and whether
the caller-supplied `validate` callback succeeds on the open handle
(`valid`). -/


/-- Status of one path in the block directory. -/
inductive FStat where
  | absent
  | file (readable : Bool) (valid : Bool)
deriving DecidableEq, Repr

/-- The filesystem, as observed through `os.path.exists` / `h5py` /
`validate`. -/
def FileSys : Type := List Char → FStat

/-- Python `os.path.exists(p)`. -/
def fsExists (fs : FileSys) (p : List Char) : Bool :=
  match fs p with
  | .absent => false
  | .file _ _ => true

/-- Whether rank 0's cleanup loop calls `os.remove(p)`: the file exists and
either the `h5py.File` open or the `validate` callback raises. -/
def shouldDelete (fs : FileSys) (p : List Char) : Bool :=
  match fs p with
  | .absent => false
  | .file readable valid => !readable || !valid

/-- The filesystem after rank 0's cleanup loop: among the computed block
paths that exist, the unreadable and the invalid ones have been removed;
no other path changes. -/
def cleanupFS (allPaths : List (List Char)) (fs : FileSys) : FileSys :=
  fun p => if p ∈ allPaths ∧ shouldDelete fs p then FStat.absent else fs p

/-- The pair of lists `get_blocks` returns (the `SimpleNamespace`). -/
structure Blocks where
  existing : List Block
  missing : List Block
deriving DecidableEq, Repr

/-- Python `get_blocks`: compute the block descriptors, have rank 0 scan the
computed paths that exist — asserting each is in `all_block_path_set` and
deleting the ones that fail to open or validate — then, after the barrier,
re-check existence of every computed path on the (single, shared)
filesystem.  `.error p` models the `AssertionError` for an unexpected
filename `p`; because the assertion can only abort (never deletes), running
all the assertions before the deletions is behaviourally equivalent to the
source's per-file interleaving. -/
def get_blocks (dir : List Char) (n_samples block_size : Nat) (fs : FileSys) :
    Except (List Char) Blocks :=
  let blocks := all_blocks dir n_samples block_size
  let all_block_path_set := blocks.map (·.path)
  let existing_block_paths := (blocks.filter (fun b => fsExists fs b.path)).map (·.path)
  match existing_block_paths.find? (fun p => !(all_block_path_set.contains p)) with
  | some p => .error p
  | none =>
    let fs' := cleanupFS all_block_path_set fs
    .ok { existing := blocks.filter (fun b => fsExists fs' b.path),
          missing := blocks.filter (fun b => !fsExists fs' b.path) }

/-! ## Rank sharding (`get_blocks_by_rank`, lines 173–189) -/


/-- Helper for `everyNth`: `fuel` (any bound on `l.length`) keeps the
recursion structural so concrete slices evaluate inside the kernel. -/
def everyNthAux : Nat → List α → Nat → List α
  | 0, _, _ => []
  | fuel + 1, l, W =>
    match l with
    | [] => []
    | a :: t => a :: everyNthAux fuel (t.drop (W - 1)) W

/-- Every `W`-th element of `l`, starting with its head
(`l[::W]` in Python, `W ≥ 1`). -/
def everyNth (l : List α) (W : Nat) : List α := everyNthAux l.length l W

/-- Python extended slice `l[r : len(l) : W]`. -/
def sliceStep (l : List α) (r W : Nat) : List α := everyNth (l.drop r) W

/-- Python `get_world_max`: the all-reduce MAX over ranks `0, …, W-1` of a
per-rank quantity. -/
def worldMax (W : Nat) (f : Nat → Nat) : Nat :=
  (List.range W).foldr (fun r acc => max (f r) acc) 0

/-- Rank `r`'s padded share of a global list under `get_blocks_by_rank`:
the interleaved subsequence `l[r::W]`, extended with `None` so its length
matches the all-rank maximum share length. -/
def rank_shard (l : List α) (r W : Nat) : List (Option α) :=
  let mine := sliceStep l r W
  let maxLen := worldMax W (fun q => (sliceStep l q W).length)
  mine.map some ++ List.replicate (maxLen - mine.length) none

/-- The namespace returned by `get_blocks_by_rank`. -/
structure RankBlocks where
  n_existing_world : Nat
  n_missing_world : Nat
  existing : List (Option Block)
  missing : List (Option Block)
deriving DecidableEq, Repr

/-- Python `get_blocks_by_rank`, as observed by rank `r` of world size `W`. -/
def get_blocks_by_rank (dir : List Char) (n_samples block_size : Nat)
    (fs : FileSys) (r W : Nat) : Except (List Char) RankBlocks :=
  (get_blocks dir n_samples block_size fs).map (fun blocks =>
    { n_existing_world := blocks.existing.length,
      n_missing_world := blocks.missing.length,
      existing := rank_shard blocks.existing r W,
      missing := rank_shard blocks.missing r W })

/-! ## Sampling (`get_sampled_blocks_by_rank.sample_blocks`, lines 220–233)

The unseeded `np.random.shuffle` is abstracted as an explicit function
`shuffle`; theorems assume only that `shuffle xs` is a permutation of
`xs`. -/


/-- Python `sample_blocks`: drop the `None` markers, shuffle the real entries,
truncate to `int(np.ceil(fraction * len(_blocks)))` entries — note
`len(_blocks)` counts the markers — and pad back to that length with
`None`.  `fraction` is exact (`ℚ`). -/
def sample_blocks (fraction : ℚ) (shuffle : List α → List α)
    (blocks : List (Option α)) : List (Option α) :=
  let n_blocks_sample := (Int.ceil (fraction * blocks.length)).toNat
  let sampled := shuffle (blocks.filterMap id)
  let truncated := sampled.take n_blocks_sample
  truncated.map some ++ List.replicate (n_blocks_sample - truncated.length) none

/-! ## `BlockPathMap` (lines 255–272)

Paths are parsed back to ranges through `os.path.basename`,
`os.path.splitext` and `str.split("-")`, embedded over `List Char`.
`parseDigits` is meaningful on decimal-digit strings; Python's `int`
raises on anything else, a case no constructed map exercises. -/


/-- Python `os.path.basename(p)`: the part after the last `'/'`. -/
def basename (p : List Char) : List Char :=
  (p.reverse.takeWhile (fun c => c ≠ '/')).reverse

/-- The first component of `os.path.splitext(p)`: everything before the
last `'.'` (the whole string when there is none).  The hidden-file corner
case (a name that is all leading dots) never arises for block names, which
start with a digit. -/
def splitextRoot (p : List Char) : List Char :=
  if p.contains '.' then ((p.reverse.dropWhile (fun c => c ≠ '.')).drop 1).reverse
  else p

/-- Python `s.split(c)` for a one-character separator. -/
def splitOnChar (c : Char) : List Char → List (List Char)
  | [] => [[]]
  | a :: t =>
    if a = c then [] :: splitOnChar c t
    else
      match splitOnChar c t with
      | [] => [[a]]
      | h :: r => (a :: h) :: r

/-- Python `start_idx, end_idx = [int(i) for i in name.split("-")]`; `none` models
the `ValueError` Python raises when the split does not yield exactly two
parts. -/
def parseName (name : List Char) : Option (Nat × Nat) :=
  match splitOnChar '-' name with
  | [s, e] => some (parseDigits s, parseDigits e)
  | _ => none

/-- The `BlockPathMap` object.  `block_path_map` is the dict as an
association list, most recent insertion first (`List.lookup` returns the
most recent binding, matching dict assignment). -/
structure BlockPathMap where
  max_idx : Nat
  block_path_map : List (Nat × List Char)
  block_size : Nat
deriving DecidableEq, Repr

/-- One iteration of the `__init__` loop. -/
def BlockPathMap.insertPath (m : BlockPathMap) (block_path : List Char) :
    Option BlockPathMap :=
  match parseName (splitextRoot (basename block_path)) with
  | none => none
  | some (start_idx, end_idx) =>
    some { m with
           block_path_map := (start_idx, block_path) :: m.block_path_map,
           max_idx := max m.max_idx end_idx }

/-- Python `BlockPathMap.__init__(block_paths, block_size)`; `none` models an
uncaught parse error. -/
def BlockPathMap.init (block_paths : List (List Char)) (block_size : Nat) :
    Option BlockPathMap :=
  block_paths.foldlM BlockPathMap.insertPath
    { max_idx := 0, block_path_map := [], block_size := block_size }

/-- Python `BlockPathMap.__getitem__(idx)`; `none` models the `KeyError`. -/
def BlockPathMap.getItem (m : BlockPathMap) (idx : Nat) : Option (List Char) :=
  m.block_path_map.lookup (m.block_size * (idx / m.block_size))

/-! ## Theorems -/

theorem block_ranges_eq (n bs : Nat) :
    block_ranges n bs =
      (List.range (numBlocks n bs)).map (fun i => (i * bs, min n (i * bs + bs))) := by
  unfold block_ranges block_end_idxs block_start_idxs
  apply List.ext_getElem
  · simp
  · intro i h1 h2
    simp at h1 ⊢

theorem block_ranges_length (n bs : Nat) :
    (block_ranges n bs).length = numBlocks n bs := by
  rw [block_ranges_eq]; simp

theorem block_ranges_getElem (n bs i : Nat) (h : i < (block_ranges n bs).length) :
    (block_ranges n bs)[i] = (i * bs, min n (i * bs + bs)) := by
  have h' := h
  rw [block_ranges_length] at h'
  simp [block_ranges_eq, h']

theorem numBlocks_pos (n bs : Nat) (hn : 0 < n) (hbs : 0 < bs) :
    0 < numBlocks n bs := by
  unfold numBlocks
  exact Nat.div_pos (by omega) hbs

theorem lt_numBlocks_of_lt (n bs x : Nat) (hbs : 0 < bs) (hx : x < n) :
    x / bs < numBlocks n bs := by
  unfold numBlocks
  have h1 : x / bs ≤ (n - 1) / bs := Nat.div_le_div_right (by omega)
  have h2 : (n + bs - 1) / bs = (n - 1) / bs + 1 := by
    have : n + bs - 1 = (n - 1) + bs := by omega
    rw [this, Nat.add_div_right _ hbs]
  omega

theorem le_numBlocks_mul (n bs : Nat) (hn : 0 < n) (hbs : 0 < bs) :
    n ≤ numBlocks n bs * bs := by
  have h2 : numBlocks n bs = (n - 1) / bs + 1 := by
    unfold numBlocks
    have : n + bs - 1 = (n - 1) + bs := by omega
    rw [this, Nat.add_div_right _ hbs]
  have h3 := Nat.div_add_mod (n - 1) bs
  have h4 : (n - 1) % bs < bs := Nat.mod_lt _ hbs
  have h5 : n - 1 < ((n - 1) / bs + 1) * bs := by
    calc n - 1 = bs * ((n - 1) / bs) + (n - 1) % bs := h3.symm
      _ < bs * ((n - 1) / bs) + bs := Nat.add_lt_add_left h4 _
      _ = ((n - 1) / bs + 1) * bs := by ring
  rw [h2]
  omega

theorem natCharsAux_irrel :
    ∀ n f1 f2 : Nat, n < f1 → n < f2 → natCharsAux f1 n = natCharsAux f2 n := by
  intro n
  induction n using Nat.strong_induction_on with
  | _ n ih =>
    intro f1 f2 h1 h2
    match f1, h1, f2, h2 with
    | f1 + 1, _, f2 + 1, _ =>
      simp only [natCharsAux]
      by_cases h : n < 10
      · simp [h]
      · simp only [h, if_false]
        have hd : n / 10 < n := Nat.div_lt_self (by omega) (by omega)
        have := ih (n / 10) hd f1 f2 (by omega) (by omega)
        rw [this]

/-- The recursion `natChars` implements: peel the last decimal digit. -/
theorem natChars_unfold (n : Nat) :
    natChars n =
      if n < 10 then [digitChar n]
      else natChars (n / 10) ++ [digitChar (n % 10)] := by
  show natCharsAux (n + 1) n = _
  simp only [natCharsAux]
  by_cases h : n < 10
  · simp [h]
  · simp only [h, if_false]
    have hd : n / 10 < n := Nat.div_lt_self (by omega) (by omega)
    have := natCharsAux_irrel (n / 10) n (n / 10 + 1) (by omega) (by omega)
    rw [this]
    rfl

theorem digitChar_toNat (d : Nat) (hd : d < 10) : (digitChar d).toNat = 48 + d := by
  unfold digitChar
  interval_cases d <;> decide

theorem natChars_length (n : Nat) : (natChars n).length = Nat.log 10 n + 1 := by
  induction n using Nat.strong_induction_on with
  | _ n ih =>
    rw [natChars_unfold]
    by_cases h : n < 10
    · simp [h, Nat.log_eq_zero_iff.mpr (Or.inl h)]
    · have h10 : (10:Nat) ≤ n := by omega
      have hrec := ih (n / 10) (Nat.div_lt_self (by omega) (by omega))
      have hlog : Nat.log 10 (n / 10) = Nat.log 10 n - 1 := Nat.log_div_base 10 n
      have hpos : 0 < Nat.log 10 n := Nat.log_pos (by omega) h10
      simp [h, hrec]
      omega

theorem parseDigits_aux (f : Nat → Char → Nat)
    (hf : f = fun a c => 10 * a + (c.toNat - 48)) :
    ∀ n a : Nat, (natChars n).foldl f a = a * 10 ^ (Nat.log 10 n + 1) + n := by
  intro n
  induction n using Nat.strong_induction_on with
  | _ n ih =>
    intro a
    by_cases h : n < 10
    · rw [natChars_unfold, if_pos h]
      have hlog0 : Nat.log 10 n = 0 := Nat.log_eq_zero_iff.mpr (Or.inl h)
      simp only [List.foldl_cons, List.foldl_nil, hf, hlog0, pow_one, zero_add]
      rw [digitChar_toNat n h]
      omega
    · have hrec := ih (n / 10) (Nat.div_lt_self (by omega) (by omega)) a
      have hmod : n % 10 < 10 := Nat.mod_lt _ (by omega)
      have hlog : Nat.log 10 n = Nat.log 10 (n / 10) + 1 := by
        have h1 := Nat.log_div_base 10 n
        have h2 : 0 < Nat.log 10 n := Nat.log_pos (by omega) (by omega)
        omega
      rw [natChars_unfold, if_neg h, List.foldl_append, hrec, hlog]
      simp only [List.foldl_cons, List.foldl_nil, hf]
      rw [digitChar_toNat _ hmod]
      have e1 : a * 10 ^ (Nat.log 10 (n / 10) + 1)
          = a * 10 ^ Nat.log 10 (n / 10) * 10 := by ring
      have e2 : a * 10 ^ (Nat.log 10 (n / 10) + 1 + 1)
          = a * 10 ^ Nat.log 10 (n / 10) * 10 * 10 := by ring
      omega

theorem parseDigits_natChars (n : Nat) : parseDigits (natChars n) = n := by
  unfold parseDigits
  rw [parseDigits_aux _ rfl n 0]
  simp

theorem parseDigits_zfill (d : Nat) (s : List Char) :
    parseDigits (zfill d s) = parseDigits s := by
  unfold zfill parseDigits
  rw [List.foldl_append]
  congr 1
  induction (d - s.length) with
  | zero => simp
  | succ k ih => simpa [List.replicate_succ] using ih

theorem zfill_length (d : Nat) (s : List Char) :
    (zfill d s).length = max d s.length := by
  unfold zfill
  simp
  omega

theorem n_digits_eq (n : Nat) :
    n_digits n = if n ≤ 1 then 1 else Nat.log 10 (n - 1) + 2 := by
  unfold n_digits
  by_cases h : n ≤ 1 <;> simp [h, natChars_length]

theorem n_digits_eq_ceilLog10 (n : Nat) : n_digits n = ceilLog10 n + 1 := by
  rw [n_digits_eq]
  unfold ceilLog10
  by_cases h : n ≤ 1 <;> simp [h]

/-- The function `ceilLog10` really is the ceiling of `log₁₀`: it is the least
exponent `k` with `n ≤ 10 ^ k`. -/
theorem ceilLog10_spec (n : Nat) :
    n ≤ 10 ^ ceilLog10 n ∧ ∀ k, n ≤ 10 ^ k → ceilLog10 n ≤ k := by
  unfold ceilLog10
  by_cases h : n ≤ 1
  · rw [if_pos h]
    exact ⟨by simpa using h, fun k _ => Nat.zero_le k⟩
  · rw [if_neg h]
    constructor
    · have h1 := Nat.lt_pow_succ_log_self (b := 10) (by omega) (n - 1)
      rw [Nat.succ_eq_add_one] at h1
      omega
    · intro k hk
      have h2 : n - 1 < 10 ^ k := by omega
      have := Nat.log_lt_of_lt_pow (b := 10) (y := n - 1) (by omega) h2
      omega

/-- Every decimal numeral for a boundary value `i ≤ n` fits in
`n_digits n` characters (so `zfill` pads to exactly that width). -/
theorem natChars_length_le (n i : Nat) (hi : i ≤ n) :
    (natChars i).length ≤ n_digits n := by
  rw [natChars_length, n_digits_eq]
  by_cases h : n ≤ 1
  · rw [if_pos h]
    have h1 : Nat.log 10 i = 0 := Nat.log_eq_zero_iff.mpr (Or.inl (by omega))
    omega
  · rw [if_neg h]
    have key : Nat.log 10 i ≤ Nat.log 10 (n - 1) + 1 := by
      rcases Nat.lt_or_ge i n with hlt | hge
      · have := Nat.log_mono_right (b := 10) (show i ≤ n - 1 by omega)
        omega
      · have hin : i = n := by omega
        subst hin
        have h1 : i ≤ (i - 1) * 10 := by omega
        have h2 := Nat.log_mono_right (b := 10) h1
        have h3 : Nat.log 10 ((i - 1) * 10) = Nat.log 10 (i - 1) + 1 :=
          Nat.log_mul_base (by omega) (by omega)
        omega
    omega

theorem everyNthAux_irrel :
    ∀ (f1 : Nat) (l : List α) (f2 W : Nat), l.length ≤ f1 → l.length ≤ f2 →
      everyNthAux f1 l W = everyNthAux f2 l W := by
  intro f1
  induction f1 with
  | zero =>
    intro l f2 W h1 _
    have : l = [] := List.length_eq_zero.mp (by omega)
    subst this
    cases f2 <;> rfl
  | succ f1 ih =>
    intro l f2 W h1 h2
    match l with
    | [] => cases f2 <;> rfl
    | a :: t =>
      match f2, h2 with
      | f2 + 1, _ =>
        simp only [everyNthAux]
        have hsub : (t.drop (W - 1)).length ≤ t.length := by
          simp [List.length_drop]
        have hlen : (a :: t).length = t.length + 1 := by simp
        rw [ih (t.drop (W - 1)) f2 W (by omega) (by omega)]

/-- The recursion `everyNth` implements: keep the head, skip `W - 1`. -/
theorem everyNth_unfold (a : α) (t : List α) (W : Nat) :
    everyNth (a :: t) W = a :: everyNth (t.drop (W - 1)) W := by
  show everyNthAux (a :: t).length (a :: t) W = _
  simp only [List.length_cons, everyNthAux]
  have hsub : (t.drop (W - 1)).length ≤ t.length := by
    simp [List.length_drop]
  rw [everyNthAux_irrel t.length (t.drop (W - 1)) (t.drop (W - 1)).length W
    (by omega) (by omega)]
  rfl

theorem everyNth_nil (W : Nat) : everyNth ([] : List α) W = [] := rfl

/-! ## Properties of the block partition -/


theorem start_lt_of_lt_numBlocks (n bs i : Nat) (hn : 0 < n) (hbs : 0 < bs)
    (hi : i < numBlocks n bs) : i * bs < n := by
  have h2 : numBlocks n bs = (n - 1) / bs + 1 := by
    unfold numBlocks
    have : n + bs - 1 = (n - 1) + bs := by omega
    rw [this, Nat.add_div_right _ hbs]
  have h3 : i ≤ (n - 1) / bs := by omega
  have h4 : i * bs ≤ (n - 1) / bs * bs := Nat.mul_le_mul_right bs h3
  have h5 : (n - 1) / bs * bs ≤ n - 1 := Nat.div_mul_le_self _ _
  omega

theorem nat_div_eq_of_between (x i bs : Nat) (hbs : 0 < bs)
    (h1 : i * bs ≤ x) (h2 : x < i * bs + bs) : x / bs = i := by
  have hle : i ≤ x / bs := (Nat.le_div_iff_mul_le hbs).mpr h1
  have hlt : x / bs < i + 1 := by
    rw [Nat.div_lt_iff_lt_mul hbs]
    calc x < i * bs + bs := h2
      _ = (i + 1) * bs := by ring
  omega

/-- C1. For every `n_samples > 0` and `block_size > 0`, the ranges
computed by `get_blocks` exactly tile `[0, n_samples)`: the list is
non-empty, starts at `0` and ends at `n_samples`, consecutive blocks are
contiguous, every block is non-empty of length at most `block_size`, all
blocks except possibly the last have length exactly `block_size`, and every
index below `n_samples` lies in exactly one block. -/
theorem block_ranges_tiling (n bs : Nat) (hn : 0 < n) (hbs : 0 < bs) :
    block_ranges n bs ≠ []
    ∧ (∀ h : block_ranges n bs ≠ [],
        (((block_ranges n bs).head h).1 = 0
          ∧ ((block_ranges n bs).getLast h).2 = n))
    ∧ (∀ i j : Fin (block_ranges n bs).length, j.val = i.val + 1 →
        ((block_ranges n bs).get j).1 = ((block_ranges n bs).get i).2)
    ∧ (∀ i : Fin (block_ranges n bs).length,
        ((block_ranges n bs).get i).1 < ((block_ranges n bs).get i).2
          ∧ ((block_ranges n bs).get i).2 - ((block_ranges n bs).get i).1 ≤ bs)
    ∧ (∀ i : Fin (block_ranges n bs).length, i.val + 1 < (block_ranges n bs).length →
        ((block_ranges n bs).get i).2 - ((block_ranges n bs).get i).1 = bs)
    ∧ (∀ x, x < n ↔ ∃ i : Fin (block_ranges n bs).length,
        ((block_ranges n bs).get i).1 ≤ x ∧ x < ((block_ranges n bs).get i).2)
    ∧ (∀ x (i j : Fin (block_ranges n bs).length),
        ((block_ranges n bs).get i).1 ≤ x → x < ((block_ranges n bs).get i).2 →
        ((block_ranges n bs).get j).1 ≤ x → x < ((block_ranges n bs).get j).2 →
        i = j) := by
  have hlen := block_ranges_length n bs
  have hget : ∀ i : Fin (block_ranges n bs).length,
      (block_ranges n bs).get i = (i.val * bs, min n (i.val * bs + bs)) := by
    intro i
    rw [List.get_eq_getElem, block_ranges_getElem n bs i.val i.isLt]
  have hne : block_ranges n bs ≠ [] := by
    have := numBlocks_pos n bs hn hbs
    intro hempty
    rw [List.isEmpty_iff.symm] at hempty
    rw [List.isEmpty_iff_length_eq_zero, hlen] at hempty
    omega
  have hstartlt : ∀ i : Fin (block_ranges n bs).length, i.val * bs < n := by
    intro i
    exact start_lt_of_lt_numBlocks n bs i.val hn hbs (hlen ▸ i.isLt)
  refine ⟨hne, ?_, ?_, ?_, ?_, ?_, ?_⟩
  · intro h
    constructor
    · rw [List.head_eq_getElem, block_ranges_getElem]
      simp
    · rw [List.getLast_eq_getElem, block_ranges_getElem]
      simp only
      rw [hlen]
      have hpos := numBlocks_pos n bs hn hbs
      have h1 : (numBlocks n bs - 1) * bs + bs = numBlocks n bs * bs := by
        have h0 : numBlocks n bs - 1 + 1 = numBlocks n bs := by omega
        calc (numBlocks n bs - 1) * bs + bs = (numBlocks n bs - 1 + 1) * bs := by ring
          _ = numBlocks n bs * bs := by rw [h0]
      rw [h1]
      exact min_eq_left (le_numBlocks_mul n bs hn hbs)
  · intro i j hj
    rw [hget, hget, hj]
    simp only
    have h1 : (i.val + 1) * bs < n := by
      have := hstartlt ⟨i.val + 1, hj ▸ j.isLt⟩
      simpa using this
    have h2 : i.val * bs + bs ≤ n := by
      have h3 : (i.val + 1) * bs = i.val * bs + bs := by ring
      omega
    rw [min_eq_right h2]
    ring
  · intro i
    rw [hget]
    simp only
    constructor
    · exact lt_min (hstartlt i) (by omega)
    · have := min_le_right n (i.val * bs + bs)
      omega
  · intro i hi
    rw [hget]
    simp only
    have h1 : (i.val + 1) * bs < n := by
      have := hstartlt ⟨i.val + 1, hi⟩
      simpa using this
    have h2 : i.val * bs + bs ≤ n := by
      have h3 : (i.val + 1) * bs = i.val * bs + bs := by ring
      omega
    rw [min_eq_right h2]
    omega
  · intro x
    constructor
    · intro hx
      refine ⟨⟨x / bs, ?_⟩, ?_⟩
      · rw [hlen]
        exact lt_numBlocks_of_lt n bs x hbs hx
      · rw [hget]
        simp only
        refine ⟨Nat.div_mul_le_self x bs, lt_min hx ?_⟩
        have h1 := Nat.div_add_mod x bs
        have h2 := Nat.mod_lt x hbs
        have h3 : x / bs * bs = bs * (x / bs) := Nat.mul_comm _ _
        omega
    · rintro ⟨i, h1, h2⟩
      rw [hget] at h2
      simp only at h2
      have := min_le_left n (i.val * bs + bs)
      omega
  · intro x i j hi1 hi2 hj1 hj2
    rw [hget] at hi1 hi2 hj1 hj2
    simp only at hi1 hi2 hj1 hj2
    have hmi := min_le_right n (i.val * bs + bs)
    have hmj := min_le_right n (j.val * bs + bs)
    have hdi : x / bs = i.val :=
      nat_div_eq_of_between x i.val bs hbs hi1 (by omega)
    have hdj : x / bs = j.val :=
      nat_div_eq_of_between x j.val bs hbs hj1 (by omega)
    exact Fin.ext (by omega)

/-- Concrete instance of `block_ranges_tiling` at `n_samples = 250`,
`block_size = 100` (the spec's own example). -/
theorem block_ranges_tiling_witness : block_ranges 250 100 ≠ [] :=
  (block_ranges_tiling 250 100 (by decide) (by decide)).1

/-! ## The path format (C4) -/


theorem block_ranges_mem_bounds (n bs : Nat) (hn : 0 < n) (hbs : 0 < bs) :
    ∀ r ∈ block_ranges n bs, r.1 < n ∧ r.2 ≤ n := by
  intro r hr
  rw [List.mem_iff_getElem] at hr
  obtain ⟨i, hi, heq⟩ := hr
  rw [block_ranges_getElem n bs i hi] at heq
  subst heq
  have hlen := block_ranges_length n bs
  refine ⟨start_lt_of_lt_numBlocks n bs i hn hbs (by omega), min_le_left _ _⟩

/-- C4 (counterexample). At `n_samples = 10` (a power of ten) the block
file paths are *not* padded to `⌊log₁₀ n_samples⌋ + 2 = 3` digits as the
claim states: the code produces `d/00-10.hdf5`, not `d/000-010.hdf5`. -/
theorem blockPath_pad_width_counterexample :
    (all_blocks ['d'] 10 10).map (·.path)
      ≠ (block_ranges 10 10).map (fun r => blockPath ['d'] (Nat.log 10 10 + 2) r) := by
  have hlog : Nat.log 10 10 = 1 :=
    Nat.log_eq_of_pow_le_of_lt_pow (by norm_num) (by norm_num)
  rw [hlog]
  decide

/-- C4 (amended). For every `n_samples > 0`, each block path is the
given directory, `'/'`, the two boundary integers zero-padded to exactly
`⌈log₁₀ n_samples⌉ + 1` digits (not `⌊log₁₀ n_samples⌋ + 2`; the two
differ exactly when `n_samples` is a power of ten or `1`), joined by `'-'`,
with extension `".hdf5"`. -/
theorem blockPath_format (dir : List Char) (n bs : Nat) (hn : 0 < n) (hbs : 0 < bs) :
    ∀ b ∈ all_blocks dir n bs,
      b.path = dir ++ '/' :: (zfill (ceilLog10 n + 1) (natChars b.range.1)
          ++ '-' :: (zfill (ceilLog10 n + 1) (natChars b.range.2) ++ hdf5Ext))
      ∧ (zfill (ceilLog10 n + 1) (natChars b.range.1)).length = ceilLog10 n + 1
      ∧ (zfill (ceilLog10 n + 1) (natChars b.range.2)).length = ceilLog10 n + 1 := by
  intro b hb
  unfold all_blocks at hb
  rw [List.mem_map] at hb
  obtain ⟨r, hr, rfl⟩ := hb
  obtain ⟨h1, h2⟩ := block_ranges_mem_bounds n bs hn hbs r hr
  have hk := n_digits_eq_ceilLog10 n
  have hl1 : (natChars r.1).length ≤ n_digits n := natChars_length_le n r.1 (by omega)
  have hl2 : (natChars r.2).length ≤ n_digits n := natChars_length_le n r.2 h2
  refine ⟨?_, ?_, ?_⟩
  · show blockPath dir (n_digits n) r = _
    rw [← hk]
    rfl
  · rw [← hk, zfill_length]
    exact max_eq_left hl1
  · rw [← hk, zfill_length]
    exact max_eq_left hl2

/-! ## The scanner: no unexpected-file error, and the partition (C2, C7) -/


theorem filter_not_filter_perm (p : α → Bool) (l : List α) :
    List.Perm (l.filter p ++ l.filter (fun x => !p x)) l := by
  induction l with
  | nil => rfl
  | cons a t ih =>
    by_cases h : p a
    · simpa [List.filter_cons, h] using ih.cons a
    · simp only [List.filter_cons, h, Bool.not_false, if_neg, Bool.false_eq_true,
        not_false_eq_true, if_true, if_false]
      exact List.Perm.trans List.perm_middle (ih.cons a)

/-- Python `get_blocks` always reaches the collection phase: the unexpected-file
assertion checks only paths drawn from the computed block list, so it never
fails, and the call returns the existing/missing filters of `all_blocks`
over the post-cleanup filesystem. -/
theorem get_blocks_eq (dir : List Char) (n bs : Nat) (fs : FileSys) :
    get_blocks dir n bs fs =
      Except.ok
        { existing := (all_blocks dir n bs).filter
            (fun b => fsExists (cleanupFS ((all_blocks dir n bs).map (·.path)) fs) b.path),
          missing := (all_blocks dir n bs).filter
            (fun b => !fsExists (cleanupFS ((all_blocks dir n bs).map (·.path)) fs) b.path) } := by
  unfold get_blocks
  have hnone :
      (((all_blocks dir n bs).filter (fun b => fsExists fs b.path)).map (·.path)).find?
        (fun p => !(((all_blocks dir n bs).map (·.path)).contains p)) = none := by
    rw [List.find?_eq_none]
    intro p hp
    rw [List.mem_map] at hp
    obtain ⟨b, hb, rfl⟩ := hp
    rw [List.mem_filter] at hb
    simp
    exact ⟨b, hb.1, rfl⟩
  simp only [hnone]

/-- C2 (counterexample). A directory holding only the extraneous file
`d/zz.hdf5` (no computed block path exists): the claim says `get_blocks`
must signal an `UnexpectedFileError`, but it completes normally, returning
every computed block as missing — the scanner never looks at files outside
the computed path set. -/
theorem unexpected_file_ignored_counterexample :
    get_blocks ['d'] 2 2
        (fun p => if p = "d/zz.hdf5".data then FStat.file true true else FStat.absent)
      = Except.ok { existing := [], missing := all_blocks ['d'] 2 2 } := by
  rw [get_blocks_eq]
  exact congrArg Except.ok (by decide)

/-- C2 (amended). For every directory contents whatsoever — including
ones holding files that match no computed block path — `get_blocks`
completes normally (never signals the `UnexpectedFileError` assertion):
the assertion only inspects paths taken from the computed block list. -/
theorem get_blocks_never_unexpected_file_error
    (dir : List Char) (n bs : Nat) (fs : FileSys) :
    ∃ blocks, get_blocks dir n bs fs = Except.ok blocks :=
  ⟨_, get_blocks_eq dir n bs fs⟩

/-- C7. The scanner's result is a partition of the computed block set:
`existing ++ missing` is a permutation of `all_blocks`, a computed block is
in `existing` iff its path exists on the post-cleanup filesystem and in
`missing` iff it does not, and every computed block lands in exactly one of
the two lists. -/
theorem get_blocks_partition (dir : List Char) (n bs : Nat) (fs : FileSys)
    (blocks : Blocks) (heq : get_blocks dir n bs fs = Except.ok blocks) :
    List.Perm (blocks.existing ++ blocks.missing) (all_blocks dir n bs)
    ∧ (∀ b ∈ all_blocks dir n bs,
        (b ∈ blocks.existing ↔
          fsExists (cleanupFS ((all_blocks dir n bs).map (·.path)) fs) b.path = true)
        ∧ (b ∈ blocks.missing ↔
          ¬ fsExists (cleanupFS ((all_blocks dir n bs).map (·.path)) fs) b.path = true))
    ∧ (∀ b ∈ all_blocks dir n bs,
        (b ∈ blocks.existing ∧ b ∉ blocks.missing)
          ∨ (b ∉ blocks.existing ∧ b ∈ blocks.missing)) := by
  rw [get_blocks_eq] at heq
  injection heq with heq
  subst heq
  simp only
  refine ⟨filter_not_filter_perm _ _, fun b hb => ?_, fun b hb => ?_⟩
  · constructor
    · rw [List.mem_filter]
      simp [hb]
    · rw [List.mem_filter]
      simp [hb]
  · by_cases h : fsExists (cleanupFS ((all_blocks dir n bs).map (·.path)) fs) b.path = true
    · left
      constructor
      · rw [List.mem_filter]; simp [hb, h]
      · rw [List.mem_filter]; simp [h]
    · right
      constructor
      · rw [List.mem_filter]; simp [h]
      · rw [List.mem_filter]
        simp only [Bool.not_eq_true] at h
        simp [hb, h]

/-- Concrete instance of `get_blocks_partition`: an empty directory with
`n_samples = 2`, `block_size = 2` — the one computed block is missing. -/
theorem get_blocks_partition_witness :
    List.Perm ((Blocks.mk [] (all_blocks ['d'] 2 2)).existing
        ++ (Blocks.mk [] (all_blocks ['d'] 2 2)).missing)
      (all_blocks ['d'] 2 2) :=
  (get_blocks_partition ['d'] 2 2 (fun _ => FStat.absent)
    (Blocks.mk [] (all_blocks ['d'] 2 2)) (by rw [get_blocks_eq]; exact congrArg Except.ok (by decide))).1

/-- Concrete instance of `blockPath_format` at the spec's example
`n_samples = 250`, `block_size = 100`, for the final block `(200, 250)`. -/
theorem blockPath_format_witness :
    (⟨(200, 250), "d/0200-0250.hdf5".data⟩ : Block).path
      = ['d'] ++ '/' :: (zfill (ceilLog10 250 + 1) (natChars 200)
          ++ '-' :: (zfill (ceilLog10 250 + 1) (natChars 250) ++ hdf5Ext))
    ∧ (zfill (ceilLog10 250 + 1) (natChars 200)).length = ceilLog10 250 + 1
    ∧ (zfill (ceilLog10 250 + 1) (natChars 250)).length = ceilLog10 250 + 1 :=
  blockPath_format ['d'] 250 100 (by decide) (by decide)
    ⟨(200, 250), "d/0200-0250.hdf5".data⟩ (by decide)

/-! ## Interleaved slices and the rank sharder (C5) -/


theorem sliceStep_nil (r W : Nat) : sliceStep ([] : List α) r W = [] := by
  unfold sliceStep
  rw [List.drop_nil]
  exact everyNth_nil W

theorem sliceStep_cons_zero (a : α) (t : List α) (W : Nat) :
    sliceStep (a :: t) 0 W = a :: sliceStep t (W - 1) W := by
  unfold sliceStep
  rw [List.drop_zero, everyNth_unfold]

theorem sliceStep_cons_succ (a : α) (t : List α) (r W : Nat) :
    sliceStep (a :: t) (r + 1) W = sliceStep t r W := by
  unfold sliceStep
  rfl

theorem everyNth_len_aux (W : Nat) (hW : 1 ≤ W) :
    ∀ (fuel : Nat) (l : List α), l.length ≤ fuel →
      (everyNth l W).length = (l.length + W - 1) / W := by
  intro fuel
  induction fuel with
  | zero =>
    intro l hl
    have h0 : l = [] := List.length_eq_zero.mp (by omega)
    subst h0
    rw [everyNth_nil]
    simp only [List.length_nil]
    have h1 : (0 + W - 1) / W = 0 := Nat.div_eq_of_lt (by omega)
    omega
  | succ fuel ih =>
    intro l hl
    match l with
    | [] =>
      rw [everyNth_nil]
      simp only [List.length_nil]
      have h1 : (0 + W - 1) / W = 0 := Nat.div_eq_of_lt (by omega)
      omega
    | a :: t =>
      simp only [List.length_cons] at hl
      rw [everyNth_unfold]
      have hdl : (t.drop (W - 1)).length = t.length - (W - 1) := List.length_drop _ _
      have hrec := ih (t.drop (W - 1)) (by rw [hdl]; omega)
      simp only [List.length_cons, hrec, hdl]
      by_cases hc : W - 1 ≤ t.length
      · have h1 : t.length - (W - 1) + W - 1 = t.length := by omega
        rw [h1]
        have h2 : t.length + 1 + W - 1 = t.length + W := by omega
        rw [h2, Nat.add_div_right _ (by omega)]
      · have h1 : t.length - (W - 1) = 0 := by omega
        rw [h1]
        have h2 : (0 + W - 1) / W = 0 := Nat.div_eq_of_lt (by omega)
        have h3 : t.length + 1 + W - 1 = t.length + W := by omega
        rw [h2, h3]
        have h4 : (t.length + W) / W = 1 :=
          nat_div_eq_of_between (t.length + W) 1 W (by omega) (by omega) (by omega)
        omega

theorem everyNth_length (l : List α) (W : Nat) (hW : 1 ≤ W) :
    (everyNth l W).length = (l.length + W - 1) / W :=
  everyNth_len_aux W hW l.length l (Nat.le_refl _)

theorem sliceStep_length (l : List α) (r W : Nat) (hW : 1 ≤ W) :
    (sliceStep l r W).length = (l.length - r + W - 1) / W := by
  unfold sliceStep
  rw [everyNth_length _ W hW, List.length_drop]

theorem everyNth_getElem?_aux (W : Nat) (hW : 1 ≤ W) :
    ∀ (fuel : Nat) (l : List α), l.length ≤ fuel →
      ∀ i, i < (everyNth l W).length → (everyNth l W)[i]? = l[i * W]? := by
  intro fuel
  induction fuel with
  | zero =>
    intro l hl i hi
    have h0 : l = [] := List.length_eq_zero.mp (by omega)
    subst h0
    rw [everyNth_nil] at hi
    simp at hi
  | succ fuel ih =>
    intro l hl i hi
    match l with
    | [] =>
      rw [everyNth_nil] at hi
      simp at hi
    | a :: t =>
      simp only [List.length_cons] at hl
      match i with
      | 0 =>
        rw [everyNth_unfold]
        simp
      | i + 1 =>
        rw [everyNth_unfold] at hi ⊢
        simp only [List.length_cons] at hi
        rw [List.getElem?_cons_succ]
        have hdl : (t.drop (W - 1)).length = t.length - (W - 1) := List.length_drop _ _
        have hrec := ih (t.drop (W - 1)) (by rw [hdl]; omega) i (by omega)
        rw [hrec, List.getElem?_drop]
        have hidx : (i + 1) * W = (W - 1 + i * W) + 1 := by
          have h1 : (i + 1) * W = i * W + W := by ring
          omega
        rw [hidx, List.getElem?_cons_succ]

theorem sliceStep_getElem? (l : List α) (r W : Nat) (hW : 1 ≤ W) :
    ∀ i, i < (sliceStep l r W).length → (sliceStep l r W)[i]? = l[r + i * W]? := by
  intro i hi
  unfold sliceStep at hi ⊢
  rw [everyNth_getElem?_aux W hW (l.drop r).length (l.drop r) (Nat.le_refl _) i hi,
    List.getElem?_drop]

theorem sliceStep_count_sum [DecidableEq α] (W' : Nat) :
    ∀ (l : List α) (x : α),
      ((List.range (W' + 1)).map (fun r => (sliceStep l r (W' + 1)).count x)).sum
        = l.count x := by
  intro l
  induction l with
  | nil => intro x; simp [sliceStep_nil]
  | cons a t ih =>
    intro x
    rw [List.range_succ_eq_map]
    simp only [List.map_cons, List.map_map, List.sum_cons]
    rw [sliceStep_cons_zero]
    have htail : (List.range W').map
          ((fun r => ((sliceStep (a :: t) r (W' + 1)).count x)) ∘ Nat.succ)
        = (List.range W').map (fun r => (sliceStep t r (W' + 1)).count x) := by
      apply List.map_congr_left
      intro r _
      show (sliceStep (a :: t) (r + 1) (W' + 1)).count x = _
      rw [sliceStep_cons_succ]
    rw [htail]
    have hIH := ih x
    rw [List.range_succ] at hIH
    simp only [List.map_append, List.sum_append, List.map_cons, List.sum_cons,
      List.map_nil, List.sum_nil] at hIH
    simp only [Nat.add_sub_cancel]
    rw [List.count_cons]
    by_cases hxa : x = a
    · simp [hxa] at hIH ⊢
      omega
    · have hbe : (x == a) = false := by
        exact beq_false_of_ne hxa
      rw [List.count_cons] at *
      simp [hbe] at *
      omega

theorem filterMap_id_replicate_none (k : Nat) :
    (List.replicate k (none : Option α)).filterMap id = [] := by
  induction k with
  | zero => rfl
  | succ k ih => simp [List.replicate_succ, ih]

theorem filterMap_id_map_some (l : List α) : (l.map some).filterMap id = l := by
  induction l with
  | nil => rfl
  | cons a t ih => simp [ih]

theorem foldr_max_init (f : Nat → Nat) :
    ∀ (L : List Nat) (i : Nat),
      L.foldr (fun r acc => max (f r) acc) i
        = max (L.foldr (fun r acc => max (f r) acc) 0) i := by
  intro L
  induction L with
  | nil => intro i; simp
  | cons a t ih =>
    intro i
    simp only [List.foldr_cons]
    rw [ih i, Nat.max_assoc]

theorem worldMax_succ (W : Nat) (f : Nat → Nat) :
    worldMax (W + 1) f = max (worldMax W f) (f W) := by
  unfold worldMax
  rw [List.range_succ, List.foldr_append]
  simp only [List.foldr_cons, List.foldr_nil]
  rw [foldr_max_init f (List.range W) (max (f W) 0)]
  simp

theorem le_worldMax (W : Nat) (f : Nat → Nat) (r : Nat) (hr : r < W) :
    f r ≤ worldMax W f := by
  induction W with
  | zero => omega
  | succ W ih =>
    rw [worldMax_succ]
    by_cases h : r = W
    · subst h; omega
    · have := ih (by omega)
      omega

theorem worldMax_le (W : Nat) (f : Nat → Nat) (m : Nat)
    (h : ∀ r, r < W → f r ≤ m) : worldMax W f ≤ m := by
  induction W with
  | zero => exact Nat.zero_le m
  | succ W ih =>
    rw [worldMax_succ]
    have h1 := h W (by omega)
    have h2 := ih (fun r hr => h r (by omega))
    omega

theorem worldMax_slice_eq (l : List α) (W : Nat) (hW : 1 ≤ W) :
    worldMax W (fun q => (sliceStep l q W).length) = (l.length + W - 1) / W := by
  apply Nat.le_antisymm
  · apply worldMax_le
    intro r _
    rw [sliceStep_length _ _ _ hW]
    exact Nat.div_le_div_right (by omega)
  · have h0 : (sliceStep l 0 W).length ≤ worldMax W (fun q => (sliceStep l q W).length) :=
      le_worldMax W (fun q => (sliceStep l q W).length) 0 (by omega)
    rw [sliceStep_length _ _ _ hW] at h0
    simpa using h0

/-- C5. For every world size `W ≥ 1` and every global list, rank `r`'s
share under `get_blocks_by_rank` is the interleaved subsequence `l[r::W]`
(element `i` of the share is `l[r + i*W]`), the non-marker entries of the
padded share are exactly that subsequence, summing multiplicities over all
ranks recovers the input list exactly (so distinct ranks' shares are
disjoint and their union, ignoring order, is the input), and after padding
every rank's list has the same length `⌈l.length / W⌉`. -/
theorem rank_shard_spec {α : Type} [DecidableEq α] (l : List α) (W : Nat) (hW : 1 ≤ W) :
    (∀ r, (rank_shard l r W).filterMap id = sliceStep l r W)
    ∧ (∀ r i, i < (sliceStep l r W).length → (sliceStep l r W)[i]? = l[r + i * W]?)
    ∧ (∀ x : α,
        ((List.range W).map (fun r => (sliceStep l r W).count x)).sum = l.count x)
    ∧ (∀ r, r < W → (rank_shard l r W).length = (l.length + W - 1) / W) := by
  refine ⟨fun r => ?_, fun r i hi => sliceStep_getElem? l r W hW i hi, fun x => ?_, fun r hr => ?_⟩
  · unfold rank_shard
    rw [List.filterMap_append, filterMap_id_replicate_none, filterMap_id_map_some,
      List.append_nil]
  · match W, hW with
    | W' + 1, _ => exact sliceStep_count_sum W' l x
  · unfold rank_shard
    simp only [List.length_append, List.length_map, List.length_replicate]
    have h1 := le_worldMax W (fun q => (sliceStep l q W).length) r hr
    have h2 := worldMax_slice_eq l W hW
    simp only at h1
    omega

/-- Concrete instance of `rank_shard_spec`: `l = [10, 20, 30]`, `W = 2`,
rank `1` — the padded share has length `⌈3/2⌉ = 2`. -/
theorem rank_shard_spec_witness :
    (rank_shard [10, 20, 30] 1 2).length = ([10, 20, 30].length + 2 - 1) / 2 :=
  (rank_shard_spec [10, 20, 30] 2 (by decide)).2.2.2 1 (by decide)

/-! ## Sampling (C3, C9) -/


theorem sample_blocks_length (fraction : ℚ) (shuffle : List α → List α)
    (blocks : List (Option α)) :
    (sample_blocks fraction shuffle blocks).length
      = (Int.ceil (fraction * blocks.length)).toNat := by
  unfold sample_blocks
  simp only [List.length_append, List.length_map, List.length_replicate, List.length_take]
  have h1 := Nat.min_le_left ((Int.ceil (fraction * blocks.length)).toNat)
    (shuffle (blocks.filterMap id)).length
  omega

theorem sample_blocks_filterMap (fraction : ℚ) (shuffle : List α → List α)
    (blocks : List (Option α)) :
    (sample_blocks fraction shuffle blocks).filterMap id
      = (shuffle (blocks.filterMap id)).take
          ((Int.ceil (fraction * blocks.length)).toNat) := by
  unfold sample_blocks
  simp only
  rw [List.filterMap_append, filterMap_id_replicate_none, filterMap_id_map_some,
    List.append_nil]

/-- Evaluation of `sample_blocks` on the concrete counterexample input:
three slots, two real blocks, `fraction = 1/2`.  `n_blocks_sample =
⌈(1/2)·3⌉ = 2`, so *both* real blocks survive. -/
theorem sample_blocks_eval :
    sample_blocks ((1:ℚ)/2) id [some 1, some 2, (none : Option Nat)]
      = [some 1, some 2] := by
  have hceil : (Int.ceil ((1:ℚ)/2
      * (([some 1, some 2, (none : Option Nat)] : List (Option Nat)).length : ℚ))) = 2 := by
    have hc : ((([some 1, some 2, (none : Option Nat)] : List (Option Nat)).length : ℚ)) = 3 := by
      norm_num
    rw [hc, Int.ceil_eq_iff] <;> norm_num
  unfold sample_blocks
  simp only [hceil]
  decide

/-- C3 (counterexample). On the rank-sharded input
`[some 1, some 2, none]` with `fraction = 1/2`, the sampler keeps **2**
non-marker entries, while the claim's formula `⌈fraction · N⌉` (with
`N = 2` non-marker inputs) gives **1**: `n_blocks_sample` is computed from
`len(_blocks)` — markers included — not from the non-marker count. -/
theorem sample_blocks_count_counterexample :
    (((sample_blocks ((1:ℚ)/2) id [some 1, some 2, (none : Option Nat)]).filterMap id).length
        = 2)
    ∧ ((Int.ceil ((1:ℚ)/2
        * (([some 1, some 2, (none : Option Nat)].filterMap id).length : ℚ))).toNat = 1) := by
  constructor
  · rw [sample_blocks_eval]
    rfl
  · have hc : ((([some 1, some 2, (none : Option Nat)].filterMap id).length : ℚ)) = 2 := by
      have h2 : (List.filterMap id [some 1, some 2, (none : Option Nat)]).length = 2 := rfl
      rw [h2]
      norm_num
    rw [hc]
    have h : (Int.ceil ((1:ℚ)/2 * 2)) = 1 := by
      rw [Int.ceil_eq_iff] <;> norm_num
    rw [h]
    rfl

/-- C3 (amended). For every `fraction ∈ (0,1]` and every rank-sharded
input (markers included), the sampler returns a list whose number of
non-marker entries is `min N ⌈fraction · L⌉`, where `L` is the **total**
input length (markers included) and `N` the number of non-marker entries —
not `⌈fraction · N⌉`. -/
theorem sample_blocks_count (fraction : ℚ) (hf0 : 0 < fraction) (hf1 : fraction ≤ 1)
    (shuffle : List α → List α) (hsh : ∀ xs : List α, (shuffle xs).Perm xs)
    (blocks : List (Option α)) :
    ((sample_blocks fraction shuffle blocks).filterMap id).length
      = min ((blocks.filterMap id).length)
          ((Int.ceil (fraction * blocks.length)).toNat) := by
  rw [sample_blocks_filterMap, List.length_take, (hsh _).length_eq]
  exact Nat.min_comm _ _

/-- Concrete instance of `sample_blocks_count` at `fraction = 1/2`,
input `[some 1, some 2, none]`, identity shuffle. -/
theorem sample_blocks_count_witness :
    ((sample_blocks ((1:ℚ)/2) id [some 1, some 2, (none : Option Nat)]).filterMap id).length
      = min (([some 1, some 2, (none : Option Nat)].filterMap id).length)
          ((Int.ceil ((1:ℚ)/2
            * (([some 1, some 2, (none : Option Nat)] : List (Option Nat)).length : ℚ))).toNat) :=
  sample_blocks_count ((1:ℚ)/2) (by norm_num) (by norm_num) id
    (fun xs => List.Perm.refl xs) [some 1, some 2, (none : Option Nat)]

/-- C9. Sampling preserves the equal-length-across-ranks invariant:
the sampled list's total length (markers included) is exactly
`⌈fraction · L⌉` for an input of padded length `L`, so any two ranks with
equal padded input lengths keep equal output lengths (whatever their own
shuffles and entries); and every non-marker entry of the output occurs no
more often than it does among the input's non-marker entries. -/
theorem sample_blocks_rank_invariants {α : Type} [DecidableEq α]
    (fraction : ℚ) (hf0 : 0 < fraction) (hf1 : fraction ≤ 1)
    (shuffle : List α → List α) (hsh : ∀ xs : List α, (shuffle xs).Perm xs)
    (blocks : List (Option α)) :
    (sample_blocks fraction shuffle blocks).length
        = (Int.ceil (fraction * blocks.length)).toNat
    ∧ (∀ (shuffle2 : List α → List α) (blocks2 : List (Option α)),
        blocks2.length = blocks.length →
          (sample_blocks fraction shuffle2 blocks2).length
            = (sample_blocks fraction shuffle blocks).length)
    ∧ (∀ x : α, ((sample_blocks fraction shuffle blocks).filterMap id).count x
        ≤ (blocks.filterMap id).count x) := by
  refine ⟨sample_blocks_length fraction shuffle blocks, ?_, ?_⟩
  · intro shuffle2 blocks2 hlen
    rw [sample_blocks_length, sample_blocks_length, hlen]
  · intro x
    rw [sample_blocks_filterMap]
    calc ((shuffle (blocks.filterMap id)).take
            ((Int.ceil (fraction * blocks.length)).toNat)).count x
        ≤ (shuffle (blocks.filterMap id)).count x :=
          (List.take_sublist _ _).count_le x
      _ = (blocks.filterMap id).count x := (hsh _).count_eq x

/-- Concrete instance of `sample_blocks_rank_invariants`: input
`[some 1, none]`, `fraction = 1/2`, identity shuffle. -/
theorem sample_blocks_rank_invariants_witness :
    (sample_blocks ((1:ℚ)/2) id [some 1, (none : Option Nat)]).length
      = (Int.ceil ((1:ℚ)/2
          * (([some 1, (none : Option Nat)] : List (Option Nat)).length : ℚ))).toNat :=
  (sample_blocks_rank_invariants ((1:ℚ)/2) (by norm_num) (by norm_num) id
    (fun xs => List.Perm.refl xs) [some 1, (none : Option Nat)]).1

/-! ## Parsing block file names back (C6, C8, C10) -/


theorem natChars_digits : ∀ n : Nat, ∀ c ∈ natChars n, ∃ d, d < 10 ∧ c = digitChar d := by
  intro n
  induction n using Nat.strong_induction_on with
  | _ n ih =>
    intro c hc
    rw [natChars_unfold] at hc
    by_cases h : n < 10
    · rw [if_pos h] at hc
      simp at hc
      exact ⟨n, h, hc⟩
    · rw [if_neg h] at hc
      rw [List.mem_append] at hc
      rcases hc with hc | hc
      · exact ih (n / 10) (Nat.div_lt_self (by omega) (by omega)) c hc
      · simp at hc
        exact ⟨n % 10, Nat.mod_lt _ (by omega), hc⟩

theorem zfill_natChars_digits (nd x : Nat) :
    ∀ c ∈ zfill nd (natChars x), ∃ d, d < 10 ∧ c = digitChar d := by
  intro c hc
  unfold zfill at hc
  rw [List.mem_append] at hc
  rcases hc with hc | hc
  · rw [List.mem_replicate] at hc
    exact ⟨0, by omega, hc.2⟩
  · exact natChars_digits x c hc

theorem digit_ne_of_toNat (c ch : Char)
    (hc : ∃ d, d < 10 ∧ c = digitChar d)
    (hch : ch.toNat < 48 ∨ 57 < ch.toNat) : c ≠ ch := by
  obtain ⟨d, hd, rfl⟩ := hc
  intro heq
  have htn := congrArg Char.toNat heq
  rw [digitChar_toNat d hd] at htn
  omega

theorem takeWhile_append_all (p : α → Bool) (l1 l2 : List α)
    (h : ∀ x ∈ l1, p x = true) :
    (l1 ++ l2).takeWhile p = l1 ++ l2.takeWhile p := by
  induction l1 with
  | nil => simp
  | cons a t ih =>
    simp only [List.cons_append, List.takeWhile_cons, h a (by simp)]
    rw [ih (fun x hx => h x (by simp [hx]))]
    simp

theorem dropWhile_append_all (p : α → Bool) (l1 l2 : List α)
    (h : ∀ x ∈ l1, p x = true) :
    (l1 ++ l2).dropWhile p = l2.dropWhile p := by
  induction l1 with
  | nil => simp
  | cons a t ih =>
    simp only [List.cons_append, List.dropWhile_cons, h a (by simp)]
    exact ih (fun x hx => h x (by simp [hx]))

theorem basename_append (dir rest : List Char) (h : '/' ∉ rest) :
    basename (dir ++ '/' :: rest) = rest := by
  unfold basename
  rw [List.reverse_append, List.reverse_cons]
  rw [List.append_assoc]
  rw [takeWhile_append_all _ rest.reverse (['/'] ++ dir.reverse) ?hall]
  case hall =>
    intro x hx
    rw [List.mem_reverse] at hx
    simp only [decide_eq_true_eq]
    intro hxeq
    exact h (hxeq ▸ hx)
  simp

theorem splitextRoot_append_ext (st : List Char) :
    splitextRoot (st ++ hdf5Ext) = st := by
  unfold splitextRoot
  rw [if_pos ?hc]
  case hc =>
    have hmem : '.' ∈ st ++ hdf5Ext := List.mem_append.mpr (Or.inr (by decide))
    simpa using hmem
  rw [List.reverse_append]
  show ((('5' :: ('f' :: ('d' :: ('h' :: ('.' :: st.reverse))))).dropWhile
      (fun c => decide (c ≠ '.'))).drop 1).reverse = st
  simp only [List.dropWhile_cons, decide_eq_true_eq]
  rw [if_pos (by decide : ('5':Char) ≠ '.'), if_pos (by decide : ('f':Char) ≠ '.'),
    if_pos (by decide : ('d':Char) ≠ '.'), if_pos (by decide : ('h':Char) ≠ '.'),
    if_neg (by decide : ¬ (('.':Char) ≠ '.'))]
  simp

theorem splitOnChar_no_sep (c : Char) :
    ∀ l : List Char, c ∉ l → splitOnChar c l = [l] := by
  intro l
  induction l with
  | nil => intro _; rfl
  | cons a t ih =>
    intro h
    have ha : a ≠ c := fun heq => h (by simp [heq])
    have ht : c ∉ t := fun hmem => h (by simp [hmem])
    unfold splitOnChar
    rw [if_neg ha, ih ht]

theorem splitOnChar_two (c : Char) (s1 s2 : List Char)
    (h1 : c ∉ s1) (h2 : c ∉ s2) :
    splitOnChar c (s1 ++ c :: s2) = [s1, s2] := by
  induction s1 with
  | nil =>
    show splitOnChar c (c :: s2) = [[], s2]
    unfold splitOnChar
    rw [if_pos rfl, splitOnChar_no_sep c s2 h2]
  | cons a t ih =>
    have ha : a ≠ c := fun heq => h1 (by simp [heq])
    have ht : c ∉ t := fun hmem => h1 (by simp [hmem])
    show splitOnChar c (a :: (t ++ c :: s2)) = [a :: t, s2]
    unfold splitOnChar
    rw [if_neg ha, ih ht]

/-- Parsing a computed block path recovers its range: `basename`,
`splitext`, `split("-")` and `int` undo `"%s-%s.hdf5" % (zfill, zfill)`
under `os.path.join`. -/
theorem parse_blockPath (dir : List Char) (nd : Nat) (r : Nat × Nat) :
    parseName (splitextRoot (basename (blockPath dir nd r))) = some (r.1, r.2) := by
  have hd1 := zfill_natChars_digits nd r.1
  have hd2 := zfill_natChars_digits nd r.2
  have hslash : '/' ∉ blockFileName nd r := by
    intro hmem
    unfold blockFileName at hmem
    rw [List.mem_append] at hmem
    rcases hmem with hmem | hmem
    · exact digit_ne_of_toNat _ '/' (hd1 _ hmem) (by decide) rfl
    · rw [List.mem_cons] at hmem
      rcases hmem with hmem | hmem
      · exact absurd hmem.symm (by decide)
      · rw [List.mem_append] at hmem
        rcases hmem with hmem | hmem
        · exact digit_ne_of_toNat _ '/' (hd2 _ hmem) (by decide) rfl
        · revert hmem
          decide
  have hb : basename (blockPath dir nd r) = blockFileName nd r :=
    basename_append dir _ hslash
  rw [hb]
  have hext : splitextRoot (blockFileName nd r)
      = zfill nd (natChars r.1) ++ '-' :: zfill nd (natChars r.2) := by
    have hshape : blockFileName nd r
        = (zfill nd (natChars r.1) ++ '-' :: zfill nd (natChars r.2)) ++ hdf5Ext := by
      unfold blockFileName
      simp [List.append_assoc]
    rw [hshape]
    exact splitextRoot_append_ext _
  rw [hext]
  have hdash1 : '-' ∉ zfill nd (natChars r.1) := by
    intro hmem
    exact digit_ne_of_toNat _ '-' (hd1 _ hmem) (by decide) rfl
  have hdash2 : '-' ∉ zfill nd (natChars r.2) := by
    intro hmem
    exact digit_ne_of_toNat _ '-' (hd2 _ hmem) (by decide) rfl
  unfold parseName
  rw [splitOnChar_two '-' _ _ hdash1 hdash2]
  show some (parseDigits (zfill nd (natChars r.1)), parseDigits (zfill nd (natChars r.2)))
      = some (r.1, r.2)
  rw [parseDigits_zfill, parseDigits_zfill, parseDigits_natChars, parseDigits_natChars]

theorem lookup_eq_none_iff (l : List (Nat × List Char)) (k : Nat) :
    l.lookup k = none ↔ ∀ p ∈ l, p.1 ≠ k := by
  induction l with
  | nil => simp [List.lookup]
  | cons q t ih =>
    obtain ⟨a, b⟩ := q
    by_cases h : k = a
    · subst h
      simp [List.lookup]
    · have hbeq : (k == a) = false := beq_false_of_ne h
      simp only [List.lookup, hbeq]
      rw [ih]
      constructor
      · intro hall
        intro p hp
        rw [List.mem_cons] at hp
        rcases hp with hp | hp
        · subst hp
          exact fun heq => h heq.symm
        · exact hall p hp
      · intro hall p hp
        exact hall p (by simp [hp])

theorem lookup_of_mem_nodup (l : List (Nat × List Char)) (k : Nat) (v : List Char)
    (hmem : (k, v) ∈ l) (hnodup : (l.map Prod.fst).Nodup) : l.lookup k = some v := by
  induction l with
  | nil => simp at hmem
  | cons q t ih =>
    obtain ⟨a, b⟩ := q
    rw [List.mem_cons] at hmem
    rw [List.map_cons, List.nodup_cons] at hnodup
    rcases hmem with heq | hmem
    · have h1 : k = a := congrArg Prod.fst heq
      have h2 : v = b := congrArg Prod.snd heq
      subst h1
      subst h2
      simp [List.lookup]
    · have hka : k ≠ a := by
        intro heq
        apply hnodup.1
        have hh : k ∈ t.map Prod.fst := List.mem_map_of_mem Prod.fst hmem
        rwa [heq] at hh
      have hbeq : (k == a) = false := beq_false_of_ne hka
      simp only [List.lookup, hbeq]
      exact ih hmem hnodup.2

/-- Python `__init__` on a list of parseable paths: it succeeds, keeps
`block_size`, and records one `(start, path)` binding per path (latest
first, matching dict assignment). -/
theorem init_entries (f : List Char → Nat) :
    ∀ (paths : List (List Char)) (acc : BlockPathMap),
      (∀ p ∈ paths, ∃ e, parseName (splitextRoot (basename p)) = some (f p, e)) →
      ∃ m, List.foldlM BlockPathMap.insertPath acc paths = some m
        ∧ m.block_size = acc.block_size
        ∧ m.block_path_map
            = (paths.map (fun p => (f p, p))).reverse ++ acc.block_path_map := by
  intro paths
  induction paths with
  | nil =>
    intro acc _
    exact ⟨acc, rfl, rfl, by simp⟩
  | cons p t ih =>
    intro acc hall
    obtain ⟨e, he⟩ := hall p (by simp)
    have hstep : BlockPathMap.insertPath acc p
        = some { max_idx := max acc.max_idx e,
                 block_path_map := (f p, p) :: acc.block_path_map,
                 block_size := acc.block_size } := by
      unfold BlockPathMap.insertPath
      rw [he]
    obtain ⟨m, hm1, hm2, hm3⟩ :=
      ih { max_idx := max acc.max_idx e,
           block_path_map := (f p, p) :: acc.block_path_map,
           block_size := acc.block_size }
        (fun q hq => hall q (by simp [hq]))
    refine ⟨m, ?_, hm2, ?_⟩
    · rw [List.foldlM_cons, hstep]
      simpa using hm1
    · rw [hm3]
      simp

/-- C8. `__getitem__` computes `block_start = block_size * (idx //
block_size)` and looks that key up in `block_path_map`; the lookup fails
(the `KeyError`, modelled as `none`) exactly when no recorded block starts
at `block_start`.  The map is passed by value and returned untouched — in
this pure embedding `getItem` cannot mutate it. -/
theorem getItem_spec (m : BlockPathMap) (idx : Nat) (hbs : 0 < m.block_size) :
    BlockPathMap.getItem m idx
        = m.block_path_map.lookup (m.block_size * (idx / m.block_size))
    ∧ (BlockPathMap.getItem m idx = none ↔
        ∀ p ∈ m.block_path_map, p.1 ≠ m.block_size * (idx / m.block_size)) :=
  ⟨rfl, lookup_eq_none_iff _ _⟩

/-- Concrete instance of `getItem_spec`: a one-entry map, `block_size = 2`,
index `5` — key `4` is absent, so the lookup fails. -/
theorem getItem_spec_witness :
    BlockPathMap.getItem ⟨4, [(0, ['d'])], 2⟩ 5
        = ([(0, ['d'])] : List (Nat × List Char)).lookup (2 * (5 / 2))
    ∧ (BlockPathMap.getItem ⟨4, [(0, ['d'])], 2⟩ 5 = none ↔
        ∀ p ∈ ([(0, ['d'])] : List (Nat × List Char)), p.1 ≠ 2 * (5 / 2)) :=
  getItem_spec ⟨4, [(0, ['d'])], 2⟩ 5 (by decide)

/-- C10. A `BlockPathMap` built from an empty path list: construction
succeeds with an empty `block_path_map` and `max_idx = 0`, and every
subsequent lookup fails with the `KeyError` equivalent. -/
theorem blockPathMap_empty (block_size : Nat) (hbs : 0 < block_size) :
    BlockPathMap.init [] block_size
        = some { max_idx := 0, block_path_map := [], block_size := block_size }
    ∧ ∀ idx, BlockPathMap.getItem
        { max_idx := 0, block_path_map := [], block_size := block_size } idx = none :=
  ⟨rfl, fun _ => rfl⟩

/-- Concrete instance of `blockPathMap_empty` at `block_size = 3`,
lookup at index `7`. -/
theorem blockPathMap_empty_witness :
    BlockPathMap.init [] 3 = some { max_idx := 0, block_path_map := [], block_size := 3 }
    ∧ BlockPathMap.getItem { max_idx := 0, block_path_map := [], block_size := 3 } 7
        = none :=
  ⟨(blockPathMap_empty 3 (by decide)).1, (blockPathMap_empty 3 (by decide)).2 7⟩

/-- C6. Round trip: build a `BlockPathMap` from exactly the paths
`get_blocks` computes for `(n_samples, block_size)` — in any order, the
lexicographically sorted order of `from_dir` included — with the same
`block_size`.  Construction succeeds, and every `idx < n_samples` maps to
the path of the unique block whose range contains `idx` (that range is
`(idx/bs*bs, min n (idx/bs*bs + bs))`, a member of the computed ranges,
and it contains `idx`). -/
theorem blockPathMap_round_trip (dir : List Char) (n bs : Nat)
    (hn : 0 < n) (hbs : 0 < bs) (paths : List (List Char))
    (hperm : paths.Perm ((all_blocks dir n bs).map (·.path))) :
    ∃ m : BlockPathMap,
      BlockPathMap.init paths bs = some m
      ∧ m.block_size = bs
      ∧ ∀ idx, idx < n →
          (idx / bs * bs, min n (idx / bs * bs + bs)) ∈ block_ranges n bs
          ∧ idx / bs * bs ≤ idx ∧ idx < min n (idx / bs * bs + bs)
          ∧ BlockPathMap.getItem m idx
              = some (blockPath dir (n_digits n)
                  (idx / bs * bs, min n (idx / bs * bs + bs))) := by
  have hkeymap : ∀ r : Nat × Nat,
      (match parseName (splitextRoot (basename (blockPath dir (n_digits n) r))) with
       | some (s, _) => s
       | none => 0) = r.1 := by
    intro r
    rw [parse_blockPath dir (n_digits n) r]
  have hf : ∀ p ∈ paths, ∃ e, parseName (splitextRoot (basename p))
      = some ((fun q => match parseName (splitextRoot (basename q)) with
                        | some (s, _) => s
                        | none => 0) p, e) := by
    intro p hp
    have hp2 : p ∈ (all_blocks dir n bs).map (·.path) := hperm.mem_iff.mp hp
    rw [List.mem_map] at hp2
    obtain ⟨b, hb, rfl⟩ := hp2
    unfold all_blocks at hb
    rw [List.mem_map] at hb
    obtain ⟨r, _, rfl⟩ := hb
    refine ⟨r.2, ?_⟩
    show parseName (splitextRoot (basename (blockPath dir (n_digits n) r)))
        = some (match parseName (splitextRoot (basename (blockPath dir (n_digits n) r))) with
                | some (s, _) => s
                | none => 0, r.2)
    rw [parse_blockPath dir (n_digits n) r]
  obtain ⟨m, hm1, hm2, hm3⟩ := init_entries _ paths
    { max_idx := 0, block_path_map := [], block_size := bs } hf
  have hm2' : m.block_size = bs := hm2
  have hkeys_eq : (paths.map (fun q =>
        match parseName (splitextRoot (basename q)) with
        | some (s, _) => s
        | none => 0)).Perm
      ((List.range (numBlocks n bs)).map (fun i => i * bs)) := by
    have h1 := hperm.map (fun q =>
      match parseName (splitextRoot (basename q)) with
      | some (s, _) => s
      | none => 0)
    have h2 : ((all_blocks dir n bs).map (·.path)).map
          (fun q => match parseName (splitextRoot (basename q)) with
                    | some (s, _) => s
                    | none => 0)
        = (List.range (numBlocks n bs)).map (fun i => i * bs) := by
      unfold all_blocks
      rw [block_ranges_eq, List.map_map, List.map_map, List.map_map]
      apply List.map_congr_left
      intro i _
      exact hkeymap (i * bs, min n (i * bs + bs))
    rw [h2] at h1
    exact h1
  have hnodup : (m.block_path_map.map Prod.fst).Nodup := by
    rw [hm3, List.append_nil, List.map_reverse, List.nodup_reverse, List.map_map]
    have hcongr : paths.map (Prod.fst ∘ fun p =>
          ((fun q => match parseName (splitextRoot (basename q)) with
                     | some (s, _) => s
                     | none => 0) p, p))
        = paths.map (fun q => match parseName (splitextRoot (basename q)) with
                              | some (s, _) => s
                              | none => 0) :=
      List.map_congr_left (fun p _ => rfl)
    rw [hcongr, List.Perm.nodup_iff hkeys_eq]
    exact (List.nodup_range _).map
      (fun i j hij => Nat.eq_of_mul_eq_mul_right hbs hij)
  refine ⟨m, hm1, hm2', ?_⟩
  intro idx hidx
  have hiblk : idx / bs < numBlocks n bs := lt_numBlocks_of_lt n bs idx hbs hidx
  have hmem_range : (idx / bs * bs, min n (idx / bs * bs + bs)) ∈ block_ranges n bs := by
    have hlen := block_ranges_length n bs
    have hget := block_ranges_getElem n bs (idx / bs) (by omega)
    rw [← hget]
    exact List.getElem_mem _
  refine ⟨hmem_range, Nat.div_mul_le_self idx bs, ?_, ?_⟩
  · apply lt_min hidx
    have h1 := Nat.div_add_mod idx bs
    have h2 := Nat.mod_lt idx hbs
    have h3 : idx / bs * bs = bs * (idx / bs) := Nat.mul_comm _ _
    omega
  · have hpathmem : blockPath dir (n_digits n) (idx / bs * bs, min n (idx / bs * bs + bs))
        ∈ paths := by
      rw [hperm.mem_iff, List.mem_map]
      refine ⟨{ range := (idx / bs * bs, min n (idx / bs * bs + bs)),
                path := blockPath dir (n_digits n)
                  (idx / bs * bs, min n (idx / bs * bs + bs)) }, ?_, rfl⟩
      unfold all_blocks
      rw [List.mem_map]
      exact ⟨_, hmem_range, rfl⟩
    have hentry : (idx / bs * bs,
          blockPath dir (n_digits n) (idx / bs * bs, min n (idx / bs * bs + bs)))
        ∈ m.block_path_map := by
      rw [hm3, List.append_nil, List.mem_reverse, List.mem_map]
      refine ⟨blockPath dir (n_digits n) (idx / bs * bs, min n (idx / bs * bs + bs)),
        hpathmem, ?_⟩
      exact Prod.ext (hkeymap (idx / bs * bs, min n (idx / bs * bs + bs))) rfl
    show m.block_path_map.lookup (m.block_size * (idx / m.block_size)) = _
    rw [hm2']
    have hkey : bs * (idx / bs) = idx / bs * bs := Nat.mul_comm _ _
    rw [hkey]
    exact lookup_of_mem_nodup m.block_path_map _ _ hentry hnodup

/-- Concrete instance of `blockPathMap_round_trip`: `n_samples = 5`,
`block_size = 2`, paths in computed (equals sorted) order. -/
theorem blockPathMap_round_trip_witness :
    ∃ m : BlockPathMap,
      BlockPathMap.init ((all_blocks ['d'] 5 2).map (·.path)) 2 = some m
      ∧ m.block_size = 2
      ∧ ∀ idx, idx < 5 →
          (idx / 2 * 2, min 5 (idx / 2 * 2 + 2)) ∈ block_ranges 5 2
          ∧ idx / 2 * 2 ≤ idx ∧ idx < min 5 (idx / 2 * 2 + 2)
          ∧ BlockPathMap.getItem m idx
              = some (blockPath ['d'] (n_digits 5)
                  (idx / 2 * 2, min 5 (idx / 2 * 2 + 2))) :=
  blockPathMap_round_trip ['d'] 5 2 (by decide) (by decide)
    ((all_blocks ['d'] 5 2).map (·.path)) (List.Perm.refl _)

end Retro
